import Mathlib

/-!
Verification model of the persistent-text-streaming component.

The repository ships the component's README, an example chat app, and the
example's Convex glue code; the component implementation itself (stream
lifecycle manager, append/flush engine, reconstruction reader) is not among
the shipped sources, so those parts are modelled here from the
specification.  Text payloads are modelled as `List Char`; machine state is
a per-stream record, since streams share no mutable state.
-/

namespace PTS

/-- Modelled from the spec: the closed status enumeration of a stream
(`pending | streaming | done | error | timeout`), from the missing
component schema. -/
inductive StreamStatus where
  | pending
  | streaming
  | done
  | error
  | timeout
deriving DecidableEq, Repr

/-- Modelled from the spec: `done`, `error`, `timeout` are the terminal
statuses. -/
def StreamStatus.isTerminal : StreamStatus → Bool
  | .done => true
  | .error => true
  | .timeout => true
  | _ => false

/-- Modelled from the spec: the outcome passed to `finalize`. -/
inductive StreamOutcome where
  | done
  | error
  | timeout
deriving DecidableEq, Repr

/-- Modelled from the spec: the terminal status a finalize outcome maps to. -/
def StreamOutcome.toStatus : StreamOutcome → StreamStatus
  | .done => .done
  | .error => .error
  | .timeout => .timeout

/-- Modelled from the spec: a committed chunk row of the missing component's
`chunks` table: a per-stream sequence number assigned at commit time, the
text payload, and the parallel reasoning payload. -/
structure Chunk where
  sequence : Nat
  text : List Char
  reasoning : List Char
deriving DecidableEq, Repr

/-- One increment passed to `append` by the generator callback: a text delta
and a parallel reasoning delta, as in the example's `streamChat` action. -/
structure Increment where
  text : List Char
  reasoning : List Char
deriving DecidableEq, Repr

/-- Modelled from the spec: the state of one stream, covering the missing
component's `streams` row (status), its committed `chunks`, the append/flush
engine's in-memory buffers, and a log of the live-transport writes that
succeeded. -/
structure StreamState where
  status : StreamStatus
  chunks : List Chunk
  bufText : List Char
  bufReasoning : List Char
  transport : List (List Char)
deriving DecidableEq, Repr

/-- Modelled from the spec: `create()` inserts a fresh stream row with
status `pending`, no chunks, empty buffers. -/
def createStream : StreamState :=
  { status := .pending, chunks := [], bufText := [], bufReasoning := [],
    transport := [] }

/-- Modelled from the spec: the duplicate-drive error of `beginDrive`. -/
inductive DriveError where
  | alreadyDriven
deriving DecidableEq, Repr

/-- Modelled from the spec: `beginDrive` atomically checks the status; if
`pending` it transitions to `streaming`, otherwise it fails with the
duplicate-drive error. -/
def beginDrive (s : StreamState) : Except DriveError StreamState :=
  if s.status = .pending then
    .ok { s with status := .streaming }
  else
    .error .alreadyDriven

/-- Modelled from the spec: `finalize(id, outcome)` sets a terminal status;
transitions are validated centrally, so it only acts on a `streaming`
stream and is a no-op (not an error) on an already-terminal one. -/
def finalize (s : StreamState) (o : StreamOutcome) : StreamState :=
  if s.status = .streaming then { s with status := o.toStatus } else s

/-- Modelled from the spec: a sentence-terminating boundary character for
the flush policy (`.`, `!`, `?`, newline). -/
def isBoundaryChar (c : Char) : Bool :=
  c == '.' || c == '!' || c == '?' || c == '\n'

/-- Modelled from the spec: scan the buffer from its end; when it contains a
sentence boundary followed by non-boundary content, split into everything
up to and including that boundary, and the retained remainder. -/
def boundarySplit (buf : List Char) : Option (List Char × List Char) :=
  let tl := buf.reverse.takeWhile (fun c => !isBoundaryChar c)
  let hd := buf.reverse.dropWhile (fun c => !isBoundaryChar c)
  if tl.isEmpty || hd.isEmpty then none
  else some (hd.reverse, tl.reverse)

/-- Modelled from the spec: the flush policy over the buffered text.  Flush
through the last sentence boundary when one is followed by content; the
size-threshold fallback flushes the whole buffer when it exceeds the
threshold, including a post-boundary remainder that still exceeds it. -/
def splitForFlush (thresh : Nat) (buf : List Char) :
    Option (List Char × List Char) :=
  match boundarySplit buf with
  | some (c, r) => if thresh < r.length then some (buf, []) else some (c, r)
  | none => if thresh < buf.length then some (buf, []) else none

/-- Modelled from the spec: the append operation of the flush engine.  While
`streaming`: forward the text verbatim to the live transport (recorded only
when the transport write succeeds, `tok`), extend both accumulation
buffers, then evaluate the flush policy; a flush commits one chunk carrying
the flushed text and the whole accumulated reasoning (shared chunk
boundaries), with `sequence` assigned at commit time.  After a terminal
status, output is discarded. -/
def append (thresh : Nat) (tok : Bool) (s : StreamState) (i : Increment) :
    StreamState :=
  if s.status = .streaming then
    let buf := s.bufText ++ i.text
    let bufR := s.bufReasoning ++ i.reasoning
    let tr := if tok then s.transport ++ [i.text] else s.transport
    match splitForFlush thresh buf with
    | some (c, r) =>
        { s with
          chunks := s.chunks ++ [⟨s.chunks.length, c, bufR⟩],
          bufText := r, bufReasoning := [], transport := tr }
    | none =>
        { s with bufText := buf, bufReasoning := bufR, transport := tr }
  else s

/-- Modelled from the spec: the final flush when the drive stops: commit any
buffered remainder as one last chunk, but never commit an empty chunk. -/
def finalFlush (s : StreamState) : StreamState :=
  if s.status = .streaming then
    if s.bufText.isEmpty && s.bufReasoning.isEmpty then s
    else
      { s with
        chunks := s.chunks ++ [⟨s.chunks.length, s.bufText, s.bufReasoning⟩],
        bufText := [], bufReasoning := [] }
  else s

/-- Modelled from the spec: `getStreamBody` (the spec's `getBody`): read the
chunks in sequence order, concatenate the payloads, and return them with
the current status. -/
structure StreamBody where
  text : List Char
  reasoning : List Char
  status : StreamStatus
deriving DecidableEq, Repr

/-- Modelled from the spec: the reconstruction reader. -/
def getStreamBody (s : StreamState) : StreamBody :=
  { text := (s.chunks.map Chunk.text).flatten,
    reasoning := (s.chunks.map Chunk.reasoning).flatten,
    status := s.status }

/-- Modelled from the spec: how a drive's generator run ends: natural
completion, a generator failure, or the time budget being exceeded. -/
inductive GenOutcome where
  | completed
  | failed
  | timedOut
deriving DecidableEq, Repr

/-- Modelled from the spec: the terminal outcome each generator ending
finalizes to. -/
def GenOutcome.toOutcome : GenOutcome → StreamOutcome
  | .completed => .done
  | .failed => .error
  | .timedOut => .timeout

/-- Modelled from the spec: the append loop of one drive over the list of
increments the generator produced, threading the index of each live
transport write through `tf` (which writes succeed). -/
def driveLoop (thresh : Nat) (tf : Nat → Bool) :
    List Increment → Nat → StreamState → StreamState
  | [], _, s => s
  | i :: rest, k, s => driveLoop thresh tf rest (k + 1) (append thresh (tf k) s i)

/-- Modelled from the spec: flush-then-finalize, the ending sequence of a
drive (also the timeout path when the outcome is `timeout`). -/
def stopDrive (s : StreamState) (o : StreamOutcome) : StreamState :=
  finalize (finalFlush s) o

/-- Modelled from the spec: `drive(streamId, transport, generator)`: the
combined beginDrive / append-loop / flush / finalize sequence.  `incs` is
the list of increments the generator produced before ending as `g`. -/
def drive (thresh : Nat) (tf : Nat → Bool) (s : StreamState)
    (incs : List Increment) (g : GenOutcome) : Except DriveError StreamState :=
  match beginDrive s with
  | .error e => .error e
  | .ok s1 => .ok (stopDrive (driveLoop thresh tf incs 0 s1) g.toOutcome)

/-- A freshly created stream on which `beginDrive` has succeeded. -/
def startedStream : StreamState :=
  { createStream with status := .streaming }

/-- The full reasoning accumulation of a stream: committed reasoning
payloads followed by the still-buffered reasoning. -/
def fullReasoning (s : StreamState) : List Char :=
  (s.chunks.map Chunk.reasoning).flatten ++ s.bufReasoning

/-- The committed text of a stream: ordered concatenation of chunk texts. -/
def chunksText (s : StreamState) : List Char :=
  (s.chunks.map Chunk.text).flatten

/-- One operation of the subsystem acting on a stream's state, for
reachability statements. -/
inductive Op where
  | begin
  | push (tok : Bool) (i : Increment)
  | flushEnd
  | finish (o : StreamOutcome)

/-- Apply one operation; a failed `beginDrive` leaves the state unchanged. -/
def applyOp (thresh : Nat) : Op → StreamState → StreamState
  | .begin, s =>
      match beginDrive s with
      | .ok s1 => s1
      | .error _ => s
  | .push tok i, s => append thresh tok s i
  | .flushEnd, s => finalFlush s
  | .finish o, s => finalize s o

/-- A stream state reachable from creation by operations of the subsystem. -/
def Reach (thresh : Nat) (s : StreamState) : Prop :=
  ∃ ops : List Op, s = ops.foldl (fun t o => applyOp thresh o t) createStream

/-- The status transitions the spec allows as a single step. -/
def LegalTransition (old new : StreamStatus) : Prop :=
  old = new ∨ (old = .pending ∧ new = .streaming) ∨
    (old = .streaming ∧ new.isTerminal = true)

/-- Modelled from the spec: `n` competing `beginDrive` callers on the same
stream, serialized by the store's transactional check-and-set; returns how
many succeeded and the resulting state. -/
def raceBeginDrive : Nat → StreamState → Nat × StreamState
  | 0, s => (0, s)
  | n + 1, s =>
      match beginDrive s with
      | .ok s1 => ((raceBeginDrive n s1).1 + 1, (raceBeginDrive n s1).2)
      | .error _ => raceBeginDrive n s

/-- The state a successful drive of a fresh stream ends in: append loop,
final flush, then finalize with the generator's outcome. -/
def driveRun (thresh : Nat) (tf : Nat → Bool) (incs : List Increment)
    (g : GenOutcome) : StreamState :=
  stopDrive (driveLoop thresh tf incs 0 startedStream) g.toOutcome

/-- The persistence-side view of a state: everything except the live
transport log. -/
def persistView (s : StreamState) :
    StreamStatus × List Chunk × List Char × List Char :=
  (s.status, s.chunks, s.bufText, s.bufReasoning)

/-- A sample operation list used to exhibit a reachable state. -/
def reachOps : List Op :=
  [Op.begin, Op.push true ⟨("Hi. yo").data, ("r").data⟩]

/-- The reachable state produced by `reachOps`. -/
def reachEx : StreamState :=
  reachOps.foldl (fun t o => applyOp 100 o t) createStream

/-- A sample terminal-status state. -/
def doneEx : StreamState :=
  { status := .done, chunks := [], bufText := [], bufReasoning := [],
    transport := [] }

/-- A sample streaming state with a nonempty buffer. -/
def streamingEx : StreamState :=
  { status := .streaming, chunks := [], bufText := ("tail").data,
    bufReasoning := [], transport := [] }

/-- A sample increment. -/
def incEx : Increment := ⟨("more").data, []⟩

/-- The increment of the spec's flush-on-sentence-boundary example. -/
def c6Input : Increment := ⟨("Hello world. This is").data, []⟩

/-- The engine state after appending the example input to a fresh drive. -/
def c6Mid : StreamState := append 1000 true startedStream c6Input

/-- The engine state after the final flush of the example drive. -/
def c6End : StreamState := finalFlush c6Mid

/-- The boundary split is a split: the flushed part followed by the
retained remainder is the original buffer. -/
theorem boundarySplit_append (buf c r : List Char)
    (h : boundarySplit buf = some (c, r)) : c ++ r = buf := by
  simp only [boundarySplit] at h
  split at h
  · exact Option.noConfusion h
  · simp only [Option.some.injEq, Prod.mk.injEq] at h
    obtain ⟨hc, hr⟩ := h
    subst hc
    subst hr
    rw [← List.reverse_append, List.takeWhile_append_dropWhile,
      List.reverse_reverse]

/-- The flush policy's split is a split of the buffer. -/
theorem splitForFlush_append (th : Nat) (buf c r : List Char)
    (h : splitForFlush th buf = some (c, r)) : c ++ r = buf := by
  unfold splitForFlush at h
  split at h
  case h_1 c1 r1 heq =>
    split at h
    · simp only [Option.some.injEq, Prod.mk.injEq] at h
      obtain ⟨hc, hr⟩ := h
      subst hc
      subst hr
      simp
    · simp only [Option.some.injEq, Prod.mk.injEq] at h
      obtain ⟨hc, hr⟩ := h
      subst hc
      subst hr
      exact boundarySplit_append buf _ _ heq
  case h_2 heq =>
    split at h
    · simp only [Option.some.injEq, Prod.mk.injEq] at h
      obtain ⟨hc, hr⟩ := h
      subst hc
      subst hr
      simp
    · exact Option.noConfusion h

/-- After a flush, the retained remainder fits under the threshold. -/
theorem splitForFlush_rem_le (th : Nat) (buf c r : List Char)
    (h : splitForFlush th buf = some (c, r)) : r.length ≤ th := by
  unfold splitForFlush at h
  split at h
  case h_1 c1 r1 heq =>
    split at h
    next =>
      simp only [Option.some.injEq, Prod.mk.injEq] at h
      obtain ⟨_, hr⟩ := h
      subst hr
      simp
    next h2 =>
      simp only [Option.some.injEq, Prod.mk.injEq] at h
      obtain ⟨_, hr⟩ := h
      subst hr
      omega
  case h_2 heq =>
    split at h
    · simp only [Option.some.injEq, Prod.mk.injEq] at h
      obtain ⟨_, hr⟩ := h
      subst hr
      simp
    · exact Option.noConfusion h

/-- When no flush fires, the whole buffer fits under the threshold. -/
theorem splitForFlush_none_le (th : Nat) (buf : List Char)
    (h : splitForFlush th buf = none) : buf.length ≤ th := by
  unfold splitForFlush at h
  split at h
  case h_1 c1 r1 heq =>
    split at h
    · exact Option.noConfusion h
    · exact Option.noConfusion h
  case h_2 heq =>
    split at h
    · exact Option.noConfusion h
    next h2 => omega

/-- Appending never changes the stream's status. -/
theorem append_status (th : Nat) (tok : Bool) (s : StreamState)
    (i : Increment) : (append th tok s i).status = s.status := by
  by_cases hs : s.status = .streaming
  · cases hsp : splitForFlush th (s.bufText ++ i.text) with
    | none => simp [append, hs, hsp]
    | some p =>
        obtain ⟨c, r⟩ := p
        simp [append, hs, hsp]
  · simp [append, hs]

/-- The final flush never changes the stream's status. -/
theorem finalFlush_status (s : StreamState) :
    (finalFlush s).status = s.status := by
  by_cases hs : s.status = .streaming
  · by_cases hb : s.bufText.isEmpty && s.bufReasoning.isEmpty
    · simp [finalFlush, hs, hb]
    · simp only [finalFlush, hs, if_true, hb]
      simp [hb]
  · simp [finalFlush, hs]

/-- Finalize changes only the status field. -/
theorem finalize_chunks (s : StreamState) (o : StreamOutcome) :
    (finalize s o).chunks = s.chunks ∧ (finalize s o).bufText = s.bufText ∧
      (finalize s o).bufReasoning = s.bufReasoning := by
  by_cases hs : s.status = .streaming
  · simp [finalize, hs]
  · simp [finalize, hs]

/-- Stopping a streaming drive finalizes to the requested outcome. -/
theorem stopDrive_status (s : StreamState) (o : StreamOutcome)
    (h : s.status = .streaming) : (stopDrive s o).status = o.toStatus := by
  have h1 : (finalFlush s).status = .streaming := by
    rw [finalFlush_status, h]
  simp [stopDrive, finalize, h1]

/-- The append contract: committed text plus buffered text grows by exactly
the appended increment, in order. -/
theorem append_text_inv (th : Nat) (tok : Bool) (s : StreamState)
    (i : Increment) (h : s.status = .streaming) :
    chunksText (append th tok s i) ++ (append th tok s i).bufText
      = chunksText s ++ s.bufText ++ i.text := by
  cases hsp : splitForFlush th (s.bufText ++ i.text) with
  | none => simp [append, h, hsp, chunksText, List.append_assoc]
  | some p =>
      obtain ⟨c, r⟩ := p
      have hcr : c ++ r = s.bufText ++ i.text :=
        splitForFlush_append th (s.bufText ++ i.text) c r hsp
      simp only [append, h, if_true, hsp, chunksText, List.map_append,
        List.flatten_append]
      simp only [List.map_cons, List.map_nil, List.flatten_cons,
        List.flatten_nil, List.append_nil, List.append_assoc, hcr]

/-- After any append the buffered text fits under the threshold, provided it
did before (a flush leaves only a sub-threshold remainder). -/
theorem append_buf_le (th : Nat) (tok : Bool) (s : StreamState)
    (i : Increment) (h : s.bufText.length ≤ th) :
    (append th tok s i).bufText.length ≤ th := by
  by_cases hs : s.status = .streaming
  · cases hsp : splitForFlush th (s.bufText ++ i.text) with
    | none =>
        simp only [append, hs, if_true, hsp]
        exact splitForFlush_none_le th (s.bufText ++ i.text) hsp
    | some p =>
        obtain ⟨c, r⟩ := p
        simp only [append, hs, if_true, hsp]
        exact splitForFlush_rem_le th (s.bufText ++ i.text) c r hsp
  · simpa [append, hs] using h

/-- The append contract on the parallel channel: the full reasoning
accumulation grows by exactly the appended reasoning delta. -/
theorem append_reasoning_inv (th : Nat) (tok : Bool) (s : StreamState)
    (i : Increment) (h : s.status = .streaming) :
    fullReasoning (append th tok s i) = fullReasoning s ++ i.reasoning := by
  cases hsp : splitForFlush th (s.bufText ++ i.text) with
  | none => simp [append, h, hsp, fullReasoning]
  | some p =>
      obtain ⟨c, r⟩ := p
      simp [append, h, hsp, fullReasoning]

/-- Appending only ever adds chunks at the end. -/
theorem append_chunks_grow (th : Nat) (tok : Bool) (s : StreamState)
    (i : Increment) :
    ∃ t2, (append th tok s i).chunks = s.chunks ++ t2 := by
  by_cases hs : s.status = .streaming
  · cases hsp : splitForFlush th (s.bufText ++ i.text) with
    | none => exact ⟨[], by simp [append, hs, hsp]⟩
    | some p =>
        obtain ⟨c, r⟩ := p
        exact ⟨[⟨s.chunks.length, c, s.bufReasoning ++ i.reasoning⟩],
          by simp [append, hs, hsp]⟩
  · exact ⟨[], by simp [append, hs]⟩

/-- The drive loop never changes the stream's status. -/
theorem driveLoop_status (th : Nat) (tf : Nat → Bool)
    (incs : List Increment) :
    ∀ (k : Nat) (s : StreamState),
      (driveLoop th tf incs k s).status = s.status := by
  induction incs with
  | nil => intro k s; rfl
  | cons i rest ih =>
      intro k s
      rw [driveLoop, ih]
      exact append_status th (tf k) s i

/-- The drive loop's committed text plus buffered text is the starting text
followed by the concatenation of all increments, in order. -/
theorem driveLoop_text (th : Nat) (tf : Nat → Bool)
    (incs : List Increment) :
    ∀ (k : Nat) (s : StreamState), s.status = .streaming →
      chunksText (driveLoop th tf incs k s)
          ++ (driveLoop th tf incs k s).bufText
        = chunksText s ++ s.bufText ++ (incs.map Increment.text).flatten := by
  induction incs with
  | nil => intro k s _; simp [driveLoop]
  | cons i rest ih =>
      intro k s h
      have hs1 : (append th (tf k) s i).status = .streaming := by
        rw [append_status, h]
      rw [driveLoop, ih (k + 1) (append th (tf k) s i) hs1,
        append_text_inv th (tf k) s i h]
      simp [List.append_assoc]

/-- The drive loop keeps the buffered text under the threshold. -/
theorem driveLoop_buf_le (th : Nat) (tf : Nat → Bool)
    (incs : List Increment) :
    ∀ (k : Nat) (s : StreamState), s.bufText.length ≤ th →
      (driveLoop th tf incs k s).bufText.length ≤ th := by
  induction incs with
  | nil => intro k s h; exact h
  | cons i rest ih =>
      intro k s h
      rw [driveLoop]
      exact ih (k + 1) (append th (tf k) s i) (append_buf_le th (tf k) s i h)

/-- The final flush moves exactly the buffered text into the chunk log. -/
theorem finalFlush_text (s : StreamState) (h : s.status = .streaming) :
    chunksText (finalFlush s) = chunksText s ++ s.bufText ∧
      (finalFlush s).bufText = [] := by
  by_cases hb : s.bufText.isEmpty && s.bufReasoning.isEmpty
  · obtain ⟨h1, h2⟩ := Bool.and_eq_true_iff.mp hb
    have hbt : s.bufText = [] := List.isEmpty_iff.mp h1
    have hbr : s.bufReasoning = [] := List.isEmpty_iff.mp h2
    constructor
    · simp [finalFlush, h, hb, hbt, hbr]
    · simp [finalFlush, h, hb, hbt, hbr]
  · constructor
    · simp [finalFlush, h, hb, chunksText]
    · simp [finalFlush, h, hb]

/-- The persistence side of an append is independent of the transport: two
states agreeing on everything but the transport log still agree after
appending the same increment, whatever each transport write does. -/
theorem append_persistView (th : Nat) (tok tok' : Bool) (i : Increment)
    (s s' : StreamState) (h : persistView s = persistView s') :
    persistView (append th tok s i) = persistView (append th tok' s' i) := by
  simp only [persistView, Prod.mk.injEq] at h
  obtain ⟨h1, h2, h3, h4⟩ := h
  by_cases hs : s.status = .streaming
  · have hs' : s'.status = .streaming := by rw [← h1]; exact hs
    cases hsp : splitForFlush th (s.bufText ++ i.text) with
    | none =>
        have hsp' : splitForFlush th (s'.bufText ++ i.text) = none := by
          rw [← h3]; exact hsp
        simp [append, hs, hs', hsp, hsp', persistView, h1, h2, h3, h4]
    | some p =>
        obtain ⟨c, r⟩ := p
        have hsp' : splitForFlush th (s'.bufText ++ i.text) = some (c, r) := by
          rw [← h3]; exact hsp
        simp [append, hs, hs', hsp, hsp', persistView, h1, h2, h3, h4]
  · have hs' : ¬s'.status = .streaming := by rw [← h1]; exact hs
    simp [append, hs, hs', persistView, h1, h2, h3, h4]

/-- The final flush acts the same on states agreeing off-transport. -/
theorem finalFlush_persistView (s s' : StreamState)
    (h : persistView s = persistView s') :
    persistView (finalFlush s) = persistView (finalFlush s') := by
  obtain ⟨st, ch, bt, br, tr⟩ := s
  obtain ⟨st2, ch2, bt2, br2, tr2⟩ := s'
  simp only [persistView, Prod.mk.injEq] at h
  obtain ⟨h1, h2, h3, h4⟩ := h
  subst h1
  subst h2
  subst h3
  subst h4
  unfold finalFlush
  split_ifs <;> simp [persistView]

/-- Finalize acts the same on states agreeing off-transport. -/
theorem finalize_persistView (s s' : StreamState) (o : StreamOutcome)
    (h : persistView s = persistView s') :
    persistView (finalize s o) = persistView (finalize s' o) := by
  simp only [persistView, Prod.mk.injEq] at h
  obtain ⟨h1, h2, h3, h4⟩ := h
  by_cases hs : s.status = .streaming
  · have hs' : s'.status = .streaming := by rw [← h1]; exact hs
    simp [finalize, hs, hs', persistView, h1, h2, h3, h4]
  · have hs' : ¬s'.status = .streaming := by rw [← h1]; exact hs
    simp [finalize, hs, hs', persistView, h1, h2, h3, h4]

/-- The whole drive loop's persistence side is independent of which live
transport writes succeed. -/
theorem driveLoop_persistView (th : Nat) (tf tf' : Nat → Bool)
    (incs : List Increment) :
    ∀ (k k' : Nat) (s s' : StreamState), persistView s = persistView s' →
      persistView (driveLoop th tf incs k s)
        = persistView (driveLoop th tf' incs k' s') := by
  induction incs with
  | nil => intro k k' s s' h; exact h
  | cons i rest ih =>
      intro k k' s s' h
      rw [driveLoop, driveLoop]
      exact ih (k + 1) (k' + 1) _ _
        (append_persistView th (tf k) (tf' k') i s s' h)

/-- The gap-free sequence invariant: committed sequence values are exactly
`0, 1, …, n-1` in order. -/
def SeqInv (s : StreamState) : Prop :=
  s.chunks.map Chunk.sequence = List.range s.chunks.length

/-- Appending preserves the gap-free sequence invariant. -/
theorem append_seqInv (th : Nat) (tok : Bool) (s : StreamState)
    (i : Increment) (h : SeqInv s) : SeqInv (append th tok s i) := by
  by_cases hs : s.status = .streaming
  · cases hsp : splitForFlush th (s.bufText ++ i.text) with
    | none => simpa [SeqInv, append, hs, hsp] using h
    | some p =>
        obtain ⟨c, r⟩ := p
        simp only [SeqInv, append, hs, if_true, hsp, List.map_append,
          List.length_append, List.map_cons, List.map_nil, List.length_cons,
          List.length_nil]
        rw [List.range_succ]
        simp [SeqInv] at h
        simp [h]
  · simpa [append, hs] using h

/-- The final flush preserves the gap-free sequence invariant. -/
theorem finalFlush_seqInv (s : StreamState) (h : SeqInv s) :
    SeqInv (finalFlush s) := by
  unfold SeqInv at h ⊢
  unfold finalFlush
  split_ifs with hs hb
  · exact h
  · simp [List.range_succ, h]
  · exact h

/-- Every operation preserves the gap-free sequence invariant. -/
theorem applyOp_seqInv (th : Nat) (op : Op) (s : StreamState)
    (h : SeqInv s) : SeqInv (applyOp th op s) := by
  cases op with
  | begin =>
      by_cases hp : s.status = .pending
      · simpa [applyOp, beginDrive, hp] using h
      · simpa [applyOp, beginDrive, hp] using h
  | push tok i => exact append_seqInv th tok s i h
  | flushEnd => exact finalFlush_seqInv s h
  | finish o =>
      by_cases hs : s.status = .streaming
      · simpa [applyOp, finalize, hs] using h
      · simpa [applyOp, finalize, hs] using h

/-- Every reachable state satisfies the gap-free sequence invariant. -/
theorem reach_seqInv (th : Nat) (s : StreamState) (h : Reach th s) :
    SeqInv s := by
  obtain ⟨ops, rfl⟩ := h
  have aux : ∀ (l : List Op) (t : StreamState), SeqInv t →
      SeqInv (l.foldl (fun u o => applyOp th o u) t) := by
    intro l
    induction l with
    | nil => intro t ht; exact ht
    | cons o rest ih =>
        intro t ht
        exact ih (applyOp th o t) (applyOp_seqInv th o t ht)
  exact aux ops createStream (by simp [SeqInv, createStream])

/-- Every operation only ever appends to the chunk log. -/
theorem applyOp_chunks_grow (th : Nat) (op : Op) (s : StreamState) :
    ∃ t2, (applyOp th op s).chunks = s.chunks ++ t2 := by
  cases op with
  | begin =>
      by_cases hp : s.status = .pending
      · exact ⟨[], by simp [applyOp, beginDrive, hp]⟩
      · exact ⟨[], by simp [applyOp, beginDrive, hp]⟩
  | push tok i => exact append_chunks_grow th tok s i
  | flushEnd =>
      by_cases hs : s.status = .streaming
      · by_cases hb : s.bufText.isEmpty && s.bufReasoning.isEmpty
        · exact ⟨[], by simp [finalFlush, applyOp, hs, hb]⟩
        · exact ⟨[⟨s.chunks.length, s.bufText, s.bufReasoning⟩],
            by simp [finalFlush, applyOp, hs, hb]⟩
      · exact ⟨[], by simp [finalFlush, applyOp, hs]⟩
  | finish o =>
      by_cases hs : s.status = .streaming
      · exact ⟨[], by simp [applyOp, finalize, hs]⟩
      · exact ⟨[], by simp [applyOp, finalize, hs]⟩

/-- Every operation makes only a legal status transition, and terminal
statuses are never left. -/
theorem applyOp_legal (th : Nat) (op : Op) (s : StreamState) :
    LegalTransition s.status (applyOp th op s).status ∧
      (s.status.isTerminal = true → (applyOp th op s).status = s.status) := by
  cases op with
  | begin =>
      by_cases hp : s.status = .pending
      · constructor
        · exact Or.inr (Or.inl ⟨hp, by simp [applyOp, beginDrive, hp]⟩)
        · intro hT
          rw [hp] at hT
          exact absurd hT (by simp [StreamStatus.isTerminal])
      · constructor
        · exact Or.inl (by simp [applyOp, beginDrive, hp])
        · intro _
          simp [applyOp, beginDrive, hp]
  | push tok i =>
      constructor
      · exact Or.inl (append_status th tok s i).symm
      · intro _
        exact append_status th tok s i
  | flushEnd =>
      constructor
      · exact Or.inl (finalFlush_status s).symm
      · intro _
        exact finalFlush_status s
  | finish o =>
      by_cases hs : s.status = .streaming
      · constructor
        · refine Or.inr (Or.inr ⟨hs, ?_⟩)
          simp only [applyOp, finalize, hs, if_true]
          cases o <;> rfl
        · intro hT
          rw [hs] at hT
          exact absurd hT (by simp [StreamStatus.isTerminal])
      · constructor
        · exact Or.inl (by simp [applyOp, finalize, hs])
        · intro _
          simp [applyOp, finalize, hs]

/-- The reader's text is the committed text. -/
theorem getStreamBody_text (s : StreamState) :
    (getStreamBody s).text = chunksText s := rfl

/-- Finalize does not touch the committed text. -/
theorem chunksText_finalize (s : StreamState) (o : StreamOutcome) :
    chunksText (finalize s o) = chunksText s := by
  unfold chunksText
  rw [(finalize_chunks s o).1]

/-- No competing `beginDrive` succeeds on a non-pending stream. -/
theorem raceBeginDrive_zero (n : Nat) :
    ∀ s : StreamState, s.status ≠ .pending → (raceBeginDrive n s).1 = 0 := by
  induction n with
  | zero => intro s _; rfl
  | succ m ih =>
      intro s h
      have hb : beginDrive s = .error .alreadyDriven := by
        simp [beginDrive, h]
      simp [raceBeginDrive, hb, ih s h]

/-- Driving a fresh stream succeeds and runs begin / loop / flush /
finalize. -/
theorem drive_eq (th : Nat) (tf : Nat → Bool) (incs : List Increment)
    (g : GenOutcome) :
    drive th tf createStream incs g = .ok (driveRun th tf incs g) := rfl

/-- A completed drive's persisted text is the in-order concatenation of all
appended text increments. -/
theorem driveRun_text (th : Nat) (tf : Nat → Bool) (incs : List Increment)
    (g : GenOutcome) :
    (getStreamBody (driveRun th tf incs g)).text
      = (incs.map Increment.text).flatten := by
  have hs : (driveLoop th tf incs 0 startedStream).status = .streaming :=
    driveLoop_status th tf incs 0 startedStream
  have htext := driveLoop_text th tf incs 0 startedStream rfl
  simp only [chunksText, startedStream, createStream, List.map_nil,
    List.flatten_nil, List.nil_append] at htext
  simp only [driveRun, stopDrive, getStreamBody_text, chunksText_finalize,
    (finalFlush_text (driveLoop th tf incs 0 startedStream) hs).1]
  rw [← htext]
  rfl

/-- A drive finalizes to the status matching its generator's ending. -/
theorem driveRun_status (th : Nat) (tf : Nat → Bool) (incs : List Increment)
    (g : GenOutcome) :
    (driveRun th tf incs g).status = g.toOutcome.toStatus := by
  have hs : (driveLoop th tf incs 0 startedStream).status = .streaming :=
    driveLoop_status th tf incs 0 startedStream
  exact stopDrive_status (driveLoop th tf incs 0 startedStream) g.toOutcome hs

/-- C1: for every drive of a stream and every finite sequence of text
increments passed to append during that drive, the final persisted text
returned by the reader equals the concatenation of all increments in order;
on a crash before the final flush, the persisted text plus the buffered
remainder is still that concatenation, and the lost remainder is at most
the sub-threshold buffered fragment. -/
theorem claim_c1 (th : Nat) (tf : Nat → Bool) (incs : List Increment)
    (g : GenOutcome) :
    drive th tf createStream incs g = .ok (driveRun th tf incs g) ∧
    (getStreamBody (driveRun th tf incs g)).text
      = (incs.map Increment.text).flatten ∧
    (getStreamBody (driveLoop th tf incs 0 startedStream)).text
        ++ (driveLoop th tf incs 0 startedStream).bufText
      = (incs.map Increment.text).flatten ∧
    (driveLoop th tf incs 0 startedStream).bufText.length ≤ th := by
  refine ⟨drive_eq th tf incs g, driveRun_text th tf incs g, ?_, ?_⟩
  · have htext := driveLoop_text th tf incs 0 startedStream rfl
    simp only [chunksText, startedStream, createStream, List.map_nil,
      List.flatten_nil, List.nil_append] at htext
    rw [getStreamBody_text]
    exact htext
  · exact driveLoop_buf_le th tf incs 0 startedStream (by simp [startedStream,
      createStream])

/-- C2: `beginDrive` succeeds (moving `pending` to `streaming`) exactly when
the stream is `pending`; otherwise it fails with the duplicate-drive error;
and among any positive number of competing `beginDrive` callers on one
pending stream, exactly one succeeds (none succeed otherwise). -/
theorem claim_c2 :
    (∀ s : StreamState, (∃ s1, beginDrive s = .ok s1) ↔
      s.status = .pending) ∧
    (∀ s : StreamState, s.status = .pending →
      beginDrive s = .ok { s with status := .streaming }) ∧
    (∀ s : StreamState, s.status ≠ .pending →
      beginDrive s = .error .alreadyDriven) ∧
    (∀ (n : Nat) (s : StreamState), s.status = .pending → 1 ≤ n →
      (raceBeginDrive n s).1 = 1) ∧
    (∀ (n : Nat) (s : StreamState), s.status ≠ .pending →
      (raceBeginDrive n s).1 = 0) := by
  refine ⟨?_, ?_, ?_, ?_, raceBeginDrive_zero⟩
  · intro s
    constructor
    · rintro ⟨s1, h⟩
      by_cases hp : s.status = .pending
      · exact hp
      · simp [beginDrive, hp] at h
    · intro hp
      exact ⟨{ s with status := .streaming }, by simp [beginDrive, hp]⟩
  · intro s hp
    simp [beginDrive, hp]
  · intro s hp
    simp [beginDrive, hp]
  · intro n s hp hn
    cases n with
    | zero => omega
    | succ m =>
        have hb : beginDrive s = .ok { s with status := .streaming } := by
          simp [beginDrive, hp]
        have hz : (raceBeginDrive m { s with status := .streaming }).1 = 0 :=
          raceBeginDrive_zero m { s with status := .streaming } (by simp)
        simp [raceBeginDrive, hb, hz]

/-- C2 witness: three competing callers on a fresh pending stream produce
exactly one success. -/
theorem claim_c2_witness : (raceBeginDrive 3 createStream).1 = 1 :=
  claim_c2.2.2.2.1 3 createStream rfl (by decide)

/-- C3: every operation of the subsystem makes only the legal status
transitions `pending → streaming` and `streaming → done | error | timeout`,
and never changes the status of a stream in a terminal status. -/
theorem claim_c3 (th : Nat) (op : Op) (s : StreamState) :
    LegalTransition s.status (applyOp th op s).status ∧
      (s.status.isTerminal = true → (applyOp th op s).status = s.status) :=
  applyOp_legal th op s

/-- C3 witness: finalizing an already-done stream leaves its status. -/
theorem claim_c3_witness :
    (applyOp 5 (Op.finish .error) doneEx).status = doneEx.status :=
  (claim_c3 5 (Op.finish .error) doneEx).2 (by decide)

/-- C4: the chunks committed and the final status of a drive are identical
whatever subset of live-transport writes fail; generation runs to its
natural conclusion (the status is the generator outcome's status), and a
transport write by itself never changes the status of any state. -/
theorem claim_c4 (th : Nat) (tf tf2 : Nat → Bool) (incs : List Increment)
    (g : GenOutcome) (tok : Bool) (s : StreamState) (i : Increment) :
    (driveRun th tf incs g).chunks = (driveRun th tf2 incs g).chunks ∧
    (driveRun th tf incs g).status = (driveRun th tf2 incs g).status ∧
    (driveRun th tf incs g).status = g.toOutcome.toStatus ∧
    (append th tok s i).status = s.status := by
  have hview : persistView (driveRun th tf incs g)
      = persistView (driveRun th tf2 incs g) := by
    simp only [driveRun, stopDrive]
    exact finalize_persistView _ _ g.toOutcome
      (finalFlush_persistView _ _
        (driveLoop_persistView th tf tf2 incs 0 0 startedStream startedStream
          rfl))
  simp only [persistView, Prod.mk.injEq] at hview
  obtain ⟨hst, hch, _, _⟩ := hview
  exact ⟨hch, hst, driveRun_status th tf incs g, append_status th tok s i⟩

/-- C5: finalize is idempotent: on an already-terminal stream it is a no-op
for any outcome, and a second finalize never overwrites the first terminal
status. -/
theorem claim_c5 :
    (∀ (s : StreamState) (o : StreamOutcome), s.status.isTerminal = true →
      finalize s o = s) ∧
    (∀ (s : StreamState) (o1 o2 : StreamOutcome),
      finalize (finalize s o1) o2 = finalize s o1) := by
  constructor
  · intro s o h
    have hns : ¬s.status = .streaming := by
      intro hs
      rw [hs] at h
      exact absurd h (by simp [StreamStatus.isTerminal])
    simp [finalize, hns]
  · intro s o1 o2
    by_cases hs : s.status = .streaming
    · cases o1 <;> simp [finalize, hs, StreamOutcome.toStatus]
    · simp [finalize, hs]

/-- C5 witness: finalizing a done stream with a different outcome is a
no-op. -/
theorem claim_c5_witness : finalize doneEx .error = doneEx :=
  claim_c5.1 doneEx .error (by decide)

/-- C6 counterexample: after appending `"Hello world. This is"`, the
in-memory buffer retains `" This is"` (with its leading space), not the
claimed `"This is"`. -/
theorem claim_c6_cex : c6Mid.bufText ≠ ("This is").data := by decide

/-- C6 amended: appending `"Hello world. This is"` commits the chunk
`"Hello world."` (everything up to and including the sentence boundary) and
retains `" This is"` — the remainder including its leading space — in the
buffer without committing it; at stream end the final chunk `" This is"` is
committed, so the full persisted text is `"Hello world. This is"`; and at
stream end no further chunk is committed when the remaining buffer is
empty. -/
theorem claim_c6 :
    c6Mid.chunks.map Chunk.text = [("Hello world.").data] ∧
    c6Mid.bufText = (" This is").data ∧
    c6End.chunks.map Chunk.text
      = [("Hello world.").data, (" This is").data] ∧
    (getStreamBody c6End).text = ("Hello world. This is").data ∧
    c6End.bufText = [] ∧
    finalFlush c6End = c6End := by decide

/-- C7: at every reachable state the committed sequence values form the
gap-free run `0, 1, …, n-1` — each commit advances by exactly one — and
every operation only appends to the chunk log, never updating or
reordering committed chunks. -/
theorem claim_c7 (th : Nat) (s : StreamState) (h : Reach th s) :
    s.chunks.map Chunk.sequence = List.range s.chunks.length ∧
      ∀ op : Op, ∃ t2, (applyOp th op s).chunks = s.chunks ++ t2 :=
  ⟨reach_seqInv th s h, fun op => applyOp_chunks_grow th op s⟩

/-- C7 witness: the sample reachable state has gap-free sequences. -/
theorem claim_c7_witness :
    reachEx.chunks.map Chunk.sequence = List.range reachEx.chunks.length :=
  (claim_c7 100 reachEx ⟨reachOps, rfl⟩).1

/-- C8: once a stream's status is terminal no further chunk is ever
committed (append and the final flush are no-ops); on a timeout stop the
buffered remainder is committed before the status becomes `timeout`, and
afterwards appends are no-ops. -/
theorem claim_c8 :
    (∀ (th : Nat) (tok : Bool) (s : StreamState) (i : Increment),
      s.status.isTerminal = true → append th tok s i = s) ∧
    (∀ s : StreamState, s.status.isTerminal = true → finalFlush s = s) ∧
    (∀ s : StreamState, s.status = .streaming →
      (stopDrive s .timeout).status = .timeout ∧
      (getStreamBody (stopDrive s .timeout)).text
        = (getStreamBody s).text ++ s.bufText ∧
      ∀ (th : Nat) (tok : Bool) (i : Increment),
        append th tok (stopDrive s .timeout) i = stopDrive s .timeout) := by
  refine ⟨?_, ?_, ?_⟩
  · intro th tok s i h
    have hns : ¬s.status = .streaming := by
      intro hs
      rw [hs] at h
      exact absurd h (by simp [StreamStatus.isTerminal])
    simp [append, hns]
  · intro s h
    have hns : ¬s.status = .streaming := by
      intro hs
      rw [hs] at h
      exact absurd h (by simp [StreamStatus.isTerminal])
    simp [finalFlush, hns]
  · intro s hs
    have hstat : (stopDrive s .timeout).status = .timeout :=
      stopDrive_status s .timeout hs
    refine ⟨hstat, ?_, ?_⟩
    · simp only [stopDrive, getStreamBody_text, chunksText_finalize,
        (finalFlush_text s hs).1]
    · intro th tok i
      have hns : ¬(stopDrive s .timeout).status = .streaming := by
        rw [hstat]
        intro hc
        exact StreamStatus.noConfusion hc
      simp [append, hns]

/-- C8 witness: appends on a done stream and a concrete timeout stop. -/
theorem claim_c8_witness :
    append 5 true doneEx incEx = doneEx ∧
      (stopDrive streamingEx .timeout).status = .timeout :=
  ⟨claim_c8.1 5 true doneEx incEx (by decide),
    (claim_c8.2.2 streamingEx rfl).1⟩

/-- C9: readers only ever observe the closed status enumeration, never an
exception; and a generator failure flushes the buffered text and finalizes
the stream to `error`, with the full appended text persisted. -/
theorem claim_c9 :
    (∀ s : StreamState,
      (getStreamBody s).status = .pending ∨
      (getStreamBody s).status = .streaming ∨
      (getStreamBody s).status = .done ∨
      (getStreamBody s).status = .error ∨
      (getStreamBody s).status = .timeout) ∧
    (∀ (th : Nat) (tf : Nat → Bool) (incs : List Increment),
      drive th tf createStream incs .failed
        = .ok (driveRun th tf incs .failed) ∧
      (driveRun th tf incs .failed).status = .error ∧
      (getStreamBody (driveRun th tf incs .failed)).status = .error ∧
      (getStreamBody (driveRun th tf incs .failed)).text
        = (incs.map Increment.text).flatten) := by
  constructor
  · intro s
    cases hst : (getStreamBody s).status
    · exact Or.inl rfl
    · exact Or.inr (Or.inl rfl)
    · exact Or.inr (Or.inr (Or.inl rfl))
    · exact Or.inr (Or.inr (Or.inr (Or.inl rfl)))
    · exact Or.inr (Or.inr (Or.inr (Or.inr rfl)))
  · intro th tf incs
    have hst : (driveRun th tf incs .failed).status = .error :=
      driveRun_status th tf incs .failed
    exact ⟨drive_eq th tf incs .failed, hst, hst,
      driveRun_text th tf incs .failed⟩

/-- C10: an append whose text delta is empty and whose reasoning delta is
non-empty leaves the persisted body text, the chunk log and the text buffer
unchanged while extending the reasoning accumulation by exactly the delta;
symmetrically an append with an empty reasoning delta leaves the reasoning
accumulation unchanged, and the reader exposes the committed reasoning
accumulation alongside text and status. -/
theorem claim_c10 (th : Nat) (s : StreamState) (r t : List Char) :
    (s.status = .streaming → splitForFlush th s.bufText = none → r ≠ [] →
      (append th true s ⟨[], r⟩).chunks = s.chunks ∧
      (getStreamBody (append th true s ⟨[], r⟩)).text
        = (getStreamBody s).text ∧
      (append th true s ⟨[], r⟩).bufText = s.bufText ∧
      fullReasoning (append th true s ⟨[], r⟩) = fullReasoning s ++ r) ∧
    (s.status = .streaming →
      fullReasoning (append th true s ⟨t, []⟩) = fullReasoning s ∧
      (getStreamBody s).reasoning
        = (s.chunks.map Chunk.reasoning).flatten) := by
  constructor
  · intro hs hn _
    have hred : append th true s ⟨[], r⟩
        = { s with bufReasoning := s.bufReasoning ++ r,
                   transport := s.transport ++ [[]] } := by
      simp [append, hs, hn]
    refine ⟨?_, ?_, ?_, ?_⟩
    · rw [hred]
    · rw [hred]
      rfl
    · rw [hred]
    · have := append_reasoning_inv th true s ⟨[], r⟩ hs
      simpa using this
  · intro hs
    constructor
    · have := append_reasoning_inv th true s ⟨t, []⟩ hs
      simpa using this
    · rfl

/-- C10 witness: an empty-text append on a freshly started stream extends
only the reasoning accumulation. -/
theorem claim_c10_witness :
    fullReasoning (append 5 true startedStream ⟨[], ("r").data⟩)
      = fullReasoning startedStream ++ ("r").data :=
  ((claim_c10 5 startedStream (("r").data) (("t").data)).1 rfl (by decide)
    (by decide)).2.2.2

end PTS
